import Mathlib

/-! Shallow embedding of the bytemd development build watcher script:
the debounce utility, the file-path-to-package resolver, the
buildPackage executor with its try/catch/finally, and the queueBuild
scheduler with its module-level building and buildQueue sets, plus the
startup initial build pass running while the chokidar watcher is
already subscribed. -/

namespace BuildWatch

abbrev PackageId := String

/-- Quiet window of the debounced build, from the source:
debounce((packageName) => queueBuild(packageName), 300). -/
def quietWindow : Nat := 300

/-- Embedding of the debounce utility of the watch script.  The source
keeps a single closure variable, timeout, shared by every call of the
wrapped function: each call clears the pending timer, whatever
arguments that timer carried, and arms a fresh timer for wait
time-units carrying the arguments of this call.  A call trace is a
list of (time, argument) pairs in nondecreasing time order; the result
lists the (fire time, argument) of every invocation of the wrapped
function that actually happens: the call at time t fires at t + wait
exactly when no further call arrives strictly before t + wait. -/
def debounceFires (wait : Nat) : List (Nat × PackageId) → List (Nat × PackageId)
  | [] => []
  | [(t, a)] => [(t + wait, a)]
  | (t, a) :: (u, b) :: rest =>
      if t + wait ≤ u then (t + wait, a) :: debounceFires wait ((u, b) :: rest)
      else debounceFires wait ((u, b) :: rest)

/-- A call trace is a burst when each call arrives strictly less than
wait time-units after the previous one. -/
def isBurst (wait : Nat) : List (Nat × PackageId) → Bool
  | [] => true
  | [_] => true
  | (t, _) :: (u, b) :: rest => decide (u < t + wait) && isBurst wait ((u, b) :: rest)

/-- Embedding of path.relative(base, p) on paths given as segment
lists: strip the common leading segments; every remaining segment of
base contributes one ".." segment, followed by the remaining segments
of p. -/
def pathRelative : List String → List String → List String
  | [], q => q
  | b :: bs, [] => List.replicate (b :: bs).length ".."
  | b :: bs, q :: qs =>
      if b = q then pathRelative bs qs
      else List.replicate (b :: bs).length ".." ++ (q :: qs)

/-- Embedding of getPackageName of the watch script: the first segment
of path.relative(packagesDir, filePath) (split always yields at least
one part; an empty relative path yields the empty-string part). -/
def getPackageName (packagesDir filePath : List String) : String :=
  (pathRelative packagesDir filePath).headD ""

/-- root is an initial segment of p (segment-wise path containment). -/
def isUnder : List String → List String → Bool
  | [], _ => true
  | _ :: _, [] => false
  | a :: as, b :: bs => a == b && isUnder as bs

/-- Embedding of the body shared by the change, add and unlink watcher
handlers: resolve the package name of the changed file; when it is a
registered package, hand it to the debounced build, otherwise drop the
event and trigger nothing.  The result is the package handed to
debouncedBuild, or none when the event is dropped. -/
def watcherHandler (pkgs : List PackageId) (packagesDir filePath : List String) :
    Option PackageId :=
  let name := getPackageName packagesDir filePath
  if name ∈ pkgs then some name else none

/-- Console output of one buildPackage invocation, structured. -/
inductive LogEntry where
  | building (name : PackageId)
  | builtOk (name : PackageId)
  | buildErr (name : PackageId) (msg : String)
deriving Repr, DecidableEq

/-- Process-global state touched by buildPackage: the working
directory (as path segments) and the console log, newest entry
first. -/
structure ProcState where
  cwd : List String
  log : List LogEntry
deriving Repr, DecidableEq

/-- Embedding of buildPackage of the watch script.  It logs the
building line, captures originalCwd = process.cwd(), then inside try
does process.chdir(root) and runs the opaque build work, whose outcome
is the body argument: Except.ok means every build step succeeded and
the success line is logged; Except.error m means some step threw m,
the catch clause logs the error line and swallows the exception.  The
finally clause does process.chdir(originalCwd) on both paths.  The
function always returns normally: no exception escapes. -/
def buildPackage (packagesDir : List String) (name : PackageId)
    (body : Except String Unit) (st : ProcState) : ProcState :=
  let entered : ProcState := { st with log := LogEntry.building name :: st.log }
  let root : List String := packagesDir ++ [name]
  let originalCwd : List String := entered.cwd
  let inRoot : ProcState := { entered with cwd := root }
  let afterTry : ProcState :=
    match body with
    | Except.ok _ => { inRoot with log := LogEntry.builtOk name :: inRoot.log }
    | Except.error m => { inRoot with log := LogEntry.buildErr name m :: inRoot.log }
  { afterTry with cwd := originalCwd }

/-- Scheduler state of the watch script at a suspension point of its
event loop.  building and buildQueue are the two module-level Sets;
initRem is the suffix of the packages list the initial build pass has
not started yet; initActive is the package whose buildPackage call the
initial pass is currently awaiting; inflight records every outstanding
buildPackage invocation, tagged true when it was started by queueBuild
(and is therefore tracked in building) and false when it was started
directly by the initial pass loop; starts logs every buildPackage
invocation ever started, newest first. -/
structure SchedState where
  building : List PackageId
  buildQueue : List PackageId
  initRem : List PackageId
  initActive : Option PackageId
  inflight : List (PackageId × Bool)
  starts : List PackageId
deriving Repr, DecidableEq

/-- Number of occurrences of one tagged invocation in the outstanding
list. -/
def countIn : List (PackageId × Bool) → PackageId × Bool → Nat
  | [], _ => 0
  | x :: xs, y => (if x = y then 1 else 0) + countIn xs y

/-- Remove one occurrence (the completed invocation) from the
outstanding list. -/
def removeOne : List (PackageId × Bool) → PackageId × Bool → List (PackageId × Bool)
  | [], _ => []
  | x :: xs, y => if x = y then xs else x :: removeOne xs y

/-- Total number of outstanding buildPackage invocations for one
package, whichever call site started them. -/
def outstanding (s : SchedState) (p : PackageId) : Nat :=
  countIn s.inflight (p, true) + countIn s.inflight (p, false)

/-- Embedding of the synchronous prefix of queueBuild(packageName): if
the package is in the building set, add it to buildQueue and return;
otherwise add it to building and start buildPackage, which becomes an
outstanding invocation the caller does not wait for. -/
def queueBuild (s : SchedState) (p : PackageId) : SchedState :=
  if p ∈ s.building then
    { s with buildQueue := s.buildQueue.insert p }
  else
    { s with building := s.building.insert p,
             inflight := (p, true) :: s.inflight,
             starts := p :: s.starts }

/-- The atomic event-loop turns of the watch script.  reqBuild p is
the debounce timer firing queueBuild p for a package that passed the
packages.includes check in a watcher handler; finishManaged p is the
await buildPackage(p) inside queueBuild returning (success or failure
alike, buildPackage never throws) followed synchronously by the
building.delete and the process-queue re-trigger; initStart is the
initial pass loop starting buildPackage for its next package and
suspending on the await; finishInit is that awaited call returning.
The watcher is subscribed before the initial pass starts, so reqBuild
may interleave with the pass. -/
inductive Action where
  | reqBuild (p : PackageId)
  | finishManaged (p : PackageId)
  | initStart
  | finishInit
deriving Repr, DecidableEq

/-- One atomic turn of the event loop; none when the action is not
enabled in this state. -/
def step (pkgs : List PackageId) (s : SchedState) : Action → Option SchedState
  | Action.reqBuild p =>
      if p ∈ pkgs then some (queueBuild s p) else none
  | Action.finishManaged p =>
      if (p, true) ∈ s.inflight then
        let s1 : SchedState :=
          { s with inflight := removeOne s.inflight (p, true),
                   building := s.building.erase p }
        if p ∈ s1.buildQueue then
          some (queueBuild { s1 with buildQueue := s1.buildQueue.erase p } p)
        else
          some s1
      else none
  | Action.initStart =>
      match s.initRem, s.initActive with
      | p :: rest, none =>
          some { s with initRem := rest, initActive := some p,
                        inflight := (p, false) :: s.inflight,
                        starts := p :: s.starts }
      | _, _ => none
  | Action.finishInit =>
      match s.initActive with
      | some p =>
          some { s with initActive := none,
                        inflight := removeOne s.inflight (p, false) }
      | none => none

/-- State at process start: both Sets empty, the whole registry still
to build, nothing outstanding. -/
def initState (pkgs : List PackageId) : SchedState :=
  { building := [], buildQueue := [], initRem := pkgs, initActive := none,
    inflight := [], starts := [] }

/-- Run a list of event-loop turns in order. -/
def runTrace (pkgs : List PackageId) (s : SchedState) : List Action → Option SchedState
  | [] => some s
  | a :: tr =>
      match step pkgs s a with
      | some t => runTrace pkgs t tr
      | none => none

/-- check holds at every state along the trace, trace enabled
throughout. -/
def alongTrace (pkgs : List PackageId) (check : SchedState → Bool) :
    SchedState → List Action → Bool
  | s, [] => check s
  | s, a :: tr =>
      check s &&
        match step pkgs s a with
        | some t => alongTrace pkgs check t tr
        | none => false

/-- At most one buildPackage invocation outstanding, over all
packages. -/
def fewInflight (s : SchedState) : Bool :=
  decide (s.inflight.length ≤ 1)

/-- The event-loop turns of an initial build pass over a registry,
with no watcher interference: start and await one build per
package, in registry order. -/
def initPassTrace : List PackageId → List Action
  | [] => []
  | _ :: rest => Action.initStart :: Action.finishInit :: initPassTrace rest

/-- Concrete scheduler state: package a is building with a rerun
already pending (reachable by two reqBuild a turns from the initial
state). -/
def busyPending : SchedState :=
  { building := ["a"], buildQueue := ["a"], initRem := [], initActive := none,
    inflight := [("a", true)], starts := ["a"] }

/-- Concrete scheduler state: package a is building, nothing pending
(reachable by one reqBuild a turn from the initial state). -/
def busyNoQueue : SchedState :=
  { building := ["a"], buildQueue := [], initRem := [], initActive := none,
    inflight := [("a", true)], starts := ["a"] }

/-- Scheduler invariant, holding at every reachable suspension
point. -/
structure Inv (s : SchedState) : Prop where
  managed : ∀ p : PackageId,
    countIn s.inflight (p, true) = if p ∈ s.building then 1 else 0
  fromInit : ∀ p : PackageId,
    countIn s.inflight (p, false) = if s.initActive = some p then 1 else 0
  nodupB : s.building.Nodup
  nodupQ : s.buildQueue.Nodup
  queueSub : ∀ p : PackageId, p ∈ s.buildQueue → p ∈ s.building

theorem countIn_pos_of_mem (y : PackageId × Bool) :
    ∀ l : List (PackageId × Bool), y ∈ l → 0 < countIn l y := by
  intro l
  induction l with
  | nil => intro h; cases h
  | cons x xs ih =>
    intro h
    rcases List.mem_cons.mp h with h1 | h2
    · simp [countIn, h1.symm]
    · have := ih h2
      simp only [countIn]
      omega

theorem countIn_eq_zero_of_not_mem (y : PackageId × Bool) :
    ∀ l : List (PackageId × Bool), y ∉ l → countIn l y = 0 := by
  intro l
  induction l with
  | nil => intro _; rfl
  | cons x xs ih =>
    intro h
    have hx : ¬ x = y := fun he => h (he ▸ List.mem_cons_self x xs)
    simp only [countIn, if_neg hx]
    have := ih (fun hm => h (List.mem_cons_of_mem x hm))
    omega

theorem countIn_removeOne_self (y : PackageId × Bool) :
    ∀ l : List (PackageId × Bool), y ∈ l →
      countIn (removeOne l y) y + 1 = countIn l y := by
  intro l
  induction l with
  | nil => intro h; cases h
  | cons x xs ih =>
    intro h
    by_cases hx : x = y
    · simp only [removeOne, if_pos hx, countIn]
      omega
    · have hy : y ∈ xs := by
        rcases List.mem_cons.mp h with h1 | h2
        · exact absurd h1.symm hx
        · exact h2
      simp only [removeOne, if_neg hx, countIn]
      have := ih hy
      omega

theorem countIn_removeOne_ne (y z : PackageId × Bool) (hne : z ≠ y) :
    ∀ l : List (PackageId × Bool), countIn (removeOne l y) z = countIn l z := by
  intro l
  induction l with
  | nil => rfl
  | cons x xs ih =>
    by_cases hx : x = y
    · have hxz : ¬ x = z := fun h2 => hne (h2.symm.trans hx)
      simp only [removeOne, if_pos hx, countIn, if_neg hxz]
      omega
    · simp only [removeOne, if_neg hx, countIn, ih]

theorem inv_initState (pkgs : List PackageId) : Inv (initState pkgs) := by
  refine ⟨?_, ?_, ?_, ?_, ?_⟩ <;> simp [initState, countIn]

theorem inv_queueBuild (s : SchedState) (p : PackageId) (h : Inv s) :
    Inv (queueBuild s p) := by
  unfold queueBuild
  by_cases hb : p ∈ s.building
  · rw [if_pos hb]
    refine ⟨h.managed, h.fromInit, h.nodupB, h.nodupQ.insert, ?_⟩
    intro q hq
    rcases List.mem_insert_iff.mp hq with rfl | hq2
    · exact hb
    · exact h.queueSub q hq2
  · rw [if_neg hb]
    refine ⟨?_, ?_, h.nodupB.insert, h.nodupQ, ?_⟩
    · intro q
      by_cases hpq : q = p
      · subst hpq
        have h0 := h.managed q
        rw [if_neg hb] at h0
        simp [countIn, h0, List.mem_insert_iff]
      · have h0 := h.managed q
        have hxy : ¬ ((p, true) = (q, true)) := by
          simp only [Prod.mk.injEq, and_true]
          exact fun h2 => hpq h2.symm
        simp only [countIn, if_neg hxy, List.mem_insert_iff]
        rw [h0]
        simp [hpq]
    · intro q
      have h0 := h.fromInit q
      have hxy : ¬ ((p, true) = (q, false)) := by simp
      simp only [countIn, if_neg hxy, h0]
      omega
    · intro q hq
      exact List.mem_insert_iff.mpr (Or.inr (h.queueSub q hq))

theorem inv_step (pkgs : List PackageId) (s t : SchedState) (a : Action)
    (h : Inv s) (hs : step pkgs s a = some t) : Inv t := by
  cases a with
  | reqBuild p =>
    simp only [step] at hs
    by_cases hp : p ∈ pkgs
    · rw [if_pos hp] at hs
      cases hs
      exact inv_queueBuild s p h
    · rw [if_neg hp] at hs
      cases hs
  | finishManaged p =>
    simp only [step] at hs
    by_cases hin : (p, true) ∈ s.inflight
    · rw [if_pos hin] at hs
      have hpb : p ∈ s.building := by
        by_contra hnb
        have h0 := h.managed p
        rw [if_neg hnb] at h0
        have := countIn_pos_of_mem (p, true) s.inflight hin
        omega
      have hone := h.managed p
      rw [if_pos hpb] at hone
      have hrem := countIn_removeOne_self (p, true) s.inflight hin
      have hmanaged1 : ∀ q : PackageId,
          countIn (removeOne s.inflight (p, true)) (q, true) =
            if q ∈ s.building.erase p then 1 else 0 := by
        intro q
        by_cases hpq : q = p
        · subst hpq
          have hnotm : q ∉ s.building.erase q := fun hmem =>
            (h.nodupB.mem_erase_iff.mp hmem).1 rfl
          rw [if_neg hnotm]
          omega
        · have hxy : (q, true) ≠ (p, true) := by simp [hpq]
          rw [countIn_removeOne_ne _ _ hxy, h.managed q]
          by_cases hqb : q ∈ s.building
          · rw [if_pos hqb, if_pos ((List.mem_erase_of_ne hpq).mpr hqb)]
          · rw [if_neg hqb, if_neg (fun hmem => hqb ((List.mem_erase_of_ne hpq).mp hmem))]
      have hfrom1 : ∀ q : PackageId,
          countIn (removeOne s.inflight (p, true)) (q, false) =
            if s.initActive = some q then 1 else 0 := by
        intro q
        have hxy : (q, false) ≠ (p, true) := by simp
        rw [countIn_removeOne_ne _ _ hxy, h.fromInit q]
      by_cases hq : p ∈ s.buildQueue
      · rw [if_pos hq] at hs
        cases hs
        refine inv_queueBuild _ p ⟨hmanaged1, hfrom1, h.nodupB.erase p, h.nodupQ.erase p, ?_⟩
        intro q hqq
        have := h.nodupQ.mem_erase_iff.mp hqq
        exact (List.mem_erase_of_ne this.1).mpr (h.queueSub q this.2)
      · rw [if_neg hq] at hs
        cases hs
        refine ⟨hmanaged1, hfrom1, h.nodupB.erase p, h.nodupQ, ?_⟩
        intro q hqq
        have hne : q ≠ p := fun he => hq (he ▸ hqq)
        exact (List.mem_erase_of_ne hne).mpr (h.queueSub q hqq)
    · rw [if_neg hin] at hs
      cases hs
  | initStart =>
    simp only [step] at hs
    split at hs
    · rename_i p rest hrem hact
      cases hs
      refine ⟨?_, ?_, h.nodupB, h.nodupQ, h.queueSub⟩
      · intro q
        have hxy : ¬ ((p, false) = (q, true)) := by simp
        simp only [countIn, if_neg hxy, h.managed q]
        omega
      · intro q
        have h0 := h.fromInit q
        rw [hact] at h0
        have h1 : countIn s.inflight (q, false) = 0 := by
          rw [h0]
          simp
        by_cases hpq : p = q
        · subst hpq
          simp only [countIn, if_pos rfl, h1]
          simp
        · have hxy : ¬ ((p, false) = (q, false)) := by
            simp only [Prod.mk.injEq, and_true]
            exact hpq
          simp only [countIn, if_neg hxy, h1]
          simp [hpq]
    · cases hs
  | finishInit =>
    simp only [step] at hs
    split at hs
    · rename_i p hact
      cases hs
      have hmem : (p, false) ∈ s.inflight := by
        by_contra hnm
        have h0 := h.fromInit p
        rw [hact, if_pos rfl] at h0
        have h1 := countIn_eq_zero_of_not_mem (p, false) s.inflight hnm
        omega
      refine ⟨?_, ?_, h.nodupB, h.nodupQ, h.queueSub⟩
      · intro q
        have hxy : (q, true) ≠ (p, false) := by simp
        rw [countIn_removeOne_ne _ _ hxy, h.managed q]
      · intro q
        by_cases hpq : q = p
        · have h0 := h.fromInit p
          rw [hact, if_pos rfl] at h0
          have hrem := countIn_removeOne_self (p, false) s.inflight hmem
          have hz : countIn (removeOne s.inflight (p, false)) (p, false) = 0 := by
            omega
          rw [hpq]
          show countIn (removeOne s.inflight (p, false)) (p, false) =
            if (none : Option PackageId) = some p then 1 else 0
          rw [hz]
          simp
        · have hxy : (q, false) ≠ (p, false) := by
            simp only [ne_eq, Prod.mk.injEq, and_true]
            exact hpq
          rw [countIn_removeOne_ne _ _ hxy, h.fromInit q, hact]
          have hqp : ¬ p = q := fun h2 => hpq h2.symm
          simp [hqp]
    · cases hs

theorem inv_runTrace (pkgs : List PackageId) :
    ∀ (tr : List Action) (s t : SchedState), Inv s →
      runTrace pkgs s tr = some t → Inv t := by
  intro tr
  induction tr with
  | nil =>
    intro s t h hr
    cases hr
    exact h
  | cons a tr ih =>
    intro s t h hr
    simp only [runTrace] at hr
    split at hr
    case _ u hu => exact ih u t (inv_step pkgs s u a h hu) hr
    case _ => cases hr

theorem getPackageName_under : ∀ base p : List String,
    getPackageName base p ≠ "" → getPackageName base p ≠ ".." →
    isUnder (base ++ [getPackageName base p]) p = true := by
  intro base
  induction base with
  | nil =>
    intro p h1 h2
    cases p with
    | nil => exact absurd rfl h1
    | cons q qs =>
      simp only [getPackageName, pathRelative, List.headD, List.nil_append]
      simp [isUnder]
  | cons b bs ih =>
    intro p h1 h2
    cases p with
    | nil =>
      exfalso
      apply h2
      simp [getPackageName, pathRelative, List.replicate_succ]
    | cons q qs =>
      by_cases hbq : b = q
      · subst hbq
        have hg : getPackageName (b :: bs) (b :: qs) = getPackageName bs qs := by
          simp [getPackageName, pathRelative]
        rw [hg] at h1 h2 ⊢
        have hr := ih qs h1 h2
        simp [isUnder, hr]
      · exfalso
        apply h2
        simp [getPackageName, pathRelative, hbq, List.replicate_succ]

theorem debounceFires_burst (wait t : Nat) (a : PackageId) :
    ∀ l : List (Nat × PackageId), isBurst wait (l ++ [(t, a)]) = true →
      debounceFires wait (l ++ [(t, a)]) = [(t + wait, a)] := by
  intro l
  induction l with
  | nil => intro _; rfl
  | cons x xs ih =>
    intro hb
    cases x with
    | mk u c =>
      cases xs with
      | nil =>
        simp only [isBurst, List.cons_append, List.nil_append, Bool.and_eq_true,
          decide_eq_true_eq] at hb
        simp only [List.cons_append, List.nil_append, debounceFires]
        rw [if_neg (Nat.not_le.mpr hb.1)]
      | cons y ys =>
        cases y with
        | mk v d =>
          simp only [isBurst, List.cons_append, Bool.and_eq_true,
            decide_eq_true_eq] at hb
          have hrec := ih (by
            simp only [List.cons_append, isBurst, Bool.and_eq_true, decide_eq_true_eq]
            exact hb.2)
          simp only [List.cons_append] at hrec
          simp only [List.cons_append, debounceFires]
          rw [if_neg (Nat.not_le.mpr hb.1)]
          exact hrec

theorem runTrace_initPass (pkgs : List PackageId) :
    ∀ (rem : List PackageId) (s : SchedState),
      s.initActive = none → s.inflight = [] →
      runTrace pkgs { s with initRem := rem } (initPassTrace rem) =
          some { s with initRem := [], starts := rem.reverse ++ s.starts } ∧
        alongTrace pkgs fewInflight { s with initRem := rem } (initPassTrace rem) = true := by
  intro rem
  induction rem with
  | nil =>
    intro s ha hi
    constructor
    · simp [initPassTrace, runTrace]
    · simp [initPassTrace, alongTrace, fewInflight, hi]
  | cons p rest ih =>
    intro s ha hi
    have h1 : step pkgs { s with initRem := p :: rest } Action.initStart =
        some { s with initRem := rest, initActive := some p,
                      inflight := [(p, false)], starts := p :: s.starts } := by
      simp [step, ha, hi]
    have h2 : step pkgs
        { s with initRem := rest, initActive := some p,
                 inflight := [(p, false)], starts := p :: s.starts }
        Action.finishInit =
        some { s with initRem := rest, initActive := none,
                      inflight := [], starts := p :: s.starts } := by
      simp [step, removeOne]
    have hmid : ({ s with initRem := rest, initActive := none,
                          inflight := [], starts := p :: s.starts } : SchedState) =
        { ({ s with starts := p :: s.starts } : SchedState) with initRem := rest } := by
      rw [← ha, ← hi]
    obtain ⟨ihrun, ihalong⟩ :=
      ih { s with starts := p :: s.starts } ha hi
    constructor
    · simp only [initPassTrace, runTrace, h1, h2, hmid]
      rw [ihrun]
      simp [List.append_assoc]
    · simp only [initPassTrace, alongTrace, h1, h2, hmid]
      rw [ihalong]
      simp [fewInflight, hi]

/-- C10: every invocation of buildPackage restores the process working
directory to its value before the call, on both the success path and
the failure path, because the finally clause does
process.chdir(originalCwd) in either case; no build leaves the process
chdir-ed into a package root. -/
theorem buildPackage_restores_cwd (packagesDir : List String) (name : PackageId)
    (body : Except String Unit) (st : ProcState) :
    (buildPackage packagesDir name body st).cwd = st.cwd := by
  cases body <;> rfl

/-- C7: a file path lying outside every registered package source root
resolves to no registered package (the first segment of the relative
path is not a registered package name), so the watcher handler drops
the event and hands nothing to the debounced build: zero build calls.
The hypotheses record that package names are real directory names,
neither empty nor the parent marker. -/
theorem resolve_outside_drops (pkgs : List PackageId) (packagesDir filePath : List String)
    (hempty : "" ∉ pkgs) (hdots : ".." ∉ pkgs)
    (hout : ∀ q ∈ pkgs, isUnder (packagesDir ++ [q]) filePath = false) :
    watcherHandler pkgs packagesDir filePath = none := by
  simp only [watcherHandler]
  by_cases hmem : getPackageName packagesDir filePath ∈ pkgs
  · exfalso
    have h1 : getPackageName packagesDir filePath ≠ "" := fun he => hempty (he ▸ hmem)
    have h2 : getPackageName packagesDir filePath ≠ ".." := fun he => hdots (he ▸ hmem)
    have hu := getPackageName_under packagesDir filePath h1 h2
    rw [hout _ hmem] at hu
    exact Bool.false_ne_true hu
  · rw [if_neg hmem]

theorem resolve_outside_drops_witness :
    watcherHandler ["bytemd", "vue"] ["home", "packages"] ["etc", "x"] = none :=
  resolve_outside_drops ["bytemd", "vue"] ["home", "packages"] ["etc", "x"]
    (by decide) (by decide) (by decide)

/-- C2 counterexample: the debouncer does not keep one timer per key.
With the quiet window of 300, a single call for package a would fire
its build at time 300 (second conjunct), but when a call for the other
package b arrives at time 100, the shared timer is reset and only b
ever fires, at 400 (first conjunct): the burst for b cancelled and
replaced the pending debounced build of a, contradicting the claimed
per-key independence. -/
theorem debounce_not_per_key :
    debounceFires quietWindow [(0, "a"), (100, "b")] = [(400, "b")] ∧
    debounceFires quietWindow [(0, "a")] = [(300, "a")] := by
  constructor <;> decide

/-- C2 amended: the debounce utility keeps a single timer shared by
all keys, because the source closes over one timeout variable for the
whole debounced function; a call for any key arriving strictly within
wait of the previous call cancels and replaces the pending timer
whatever key that timer carried, so a burst of events for package b
cancels a pending debounced build of package a. -/
theorem debounce_shared_timer (wait t u : Nat) (a b : PackageId)
    (rest : List (Nat × PackageId)) (h : u < t + wait) :
    debounceFires wait ((t, a) :: (u, b) :: rest) = debounceFires wait ((u, b) :: rest) := by
  simp only [debounceFires]
  rw [if_neg (Nat.not_le.mpr h)]

theorem debounce_shared_timer_witness :
    debounceFires quietWindow [(0, "a"), (100, "b")] = debounceFires quietWindow [(100, "b")] :=
  debounce_shared_timer quietWindow 0 100 "a" "b" [] (by decide)

/-- C4: for any burst of one or more debounced calls, each arriving
strictly less than the quiet window of 300 after the previous one, the
wrapped action executes exactly once, at quiet-window distance after
the last call of the burst and with the arguments of that last call;
in particular a burst of rapid change events for one package triggers
exactly one build.  (The statement does not even need the calls to
share a key, since the source keeps a single shared timer.) -/
theorem debounce_burst_single_fire (calls : List (Nat × PackageId)) (t : Nat) (a : PackageId)
    (hb : isBurst quietWindow (calls ++ [(t, a)]) = true) :
    debounceFires quietWindow (calls ++ [(t, a)]) = [(t + quietWindow, a)] :=
  debounceFires_burst quietWindow t a calls hb

theorem debounce_burst_single_fire_witness :
    debounceFires quietWindow ([(0, "a"), (100, "a")] ++ [(200, "a")]) =
      [(200 + quietWindow, "a")] :=
  debounce_burst_single_fire [(0, "a"), (100, "a")] 200 "a" (by decide)

/-- C1 counterexample: two builds of the same package can be
outstanding at once during the initial build pass.  The initial pass
calls buildPackage directly, without registering the package in the
building set, while the watcher is already subscribed; so after the
pass starts building package a (initStart) and a debounced watcher
event fires queueBuild a (reqBuild), queueBuild finds the building set
empty and starts a second concurrent buildPackage of a: the number of
outstanding invocations for a reaches 2, contradicting the claimed
0-or-1 bound. -/
theorem overlap_during_initial_pass :
    (runTrace ["a"] (initState ["a"])
        [Action.initStart, Action.reqBuild "a"]).map (fun s => outstanding s "a") =
      some 2 := by
  decide

/-- C1 amended: among builds started through queueBuild the mutual
exclusion does hold: at every reachable state at most one
queueBuild-managed buildPackage invocation is outstanding per
PackageId, and the initial pass keeps at most one direct invocation
outstanding overall; once the initial pass is not awaiting a build
(initActive = none), the total outstanding count per package is 0 or
1.  Overlap is possible only between the initial pass direct call and
a watcher-triggered call for the same package. -/
theorem managed_builds_mutex (pkgs : List PackageId) (tr : List Action) (s : SchedState)
    (h : runTrace pkgs (initState pkgs) tr = some s) (p : PackageId) :
    countIn s.inflight (p, true) ≤ 1 ∧ countIn s.inflight (p, false) ≤ 1 ∧
    (s.initActive = none → outstanding s p ≤ 1) := by
  have hi := inv_runTrace pkgs tr (initState pkgs) s (inv_initState pkgs) h
  refine ⟨?_, ?_, ?_⟩
  · rw [hi.managed p]
    split <;> omega
  · rw [hi.fromInit p]
    split <;> omega
  · intro ha
    have h1 := hi.managed p
    have h2 := hi.fromInit p
    rw [ha] at h2
    simp only [outstanding, h1, h2]
    have h3 : (if (none : Option PackageId) = some p then 1 else 0) = 0 := by simp
    rw [h3]
    split <;> omega

theorem managed_builds_mutex_witness :
    countIn (SchedState.mk ["a"] [] ["a"] none [("a", true)] ["a"]).inflight ("a", true) ≤ 1 ∧
    countIn (SchedState.mk ["a"] [] ["a"] none [("a", true)] ["a"]).inflight ("a", false) ≤ 1 ∧
    ((SchedState.mk ["a"] [] ["a"] none [("a", true)] ["a"]).initActive = none →
      outstanding (SchedState.mk ["a"] [] ["a"] none [("a", true)] ["a"]) "a" ≤ 1) :=
  managed_builds_mutex ["a"] [Action.reqBuild "a"]
    (SchedState.mk ["a"] [] ["a"] none [("a", true)] ["a"]) (by decide) "a"

/-- C8: at every reachable suspension point of the scheduler, every
PackageId in the buildQueue (the PendingSet) is also in the building
set (the InFlightSet): queueBuild only adds a package to buildQueue
while that package is in building, and the completion handler removes
the pending entry, consuming it to re-trigger the build, in the same
atomic turn in which it would otherwise leave building unmatched. -/
theorem pending_subset_building (pkgs : List PackageId) (tr : List Action) (s : SchedState)
    (h : runTrace pkgs (initState pkgs) tr = some s) (p : PackageId)
    (hp : p ∈ s.buildQueue) : p ∈ s.building :=
  (inv_runTrace pkgs tr (initState pkgs) s (inv_initState pkgs) h).queueSub p hp

theorem pending_subset_building_witness :
    "a" ∈ (SchedState.mk ["a"] ["a"] ["a"] none [("a", true)] ["a"]).building :=
  pending_subset_building ["a"] [Action.reqBuild "a", Action.reqBuild "a"]
    (SchedState.mk ["a"] ["a"] ["a"] none [("a", true)] ["a"]) (by decide) "a" (by decide)

/-- C3: requests arriving while a package is in flight coalesce into
exactly one rerun.  A reqBuild while p is building only inserts p into
buildQueue and starts nothing (first conjunct); a further reqBuild
while p is already pending is a complete no-op (second conjunct); and
when the in-flight build finishes with p pending, the completion turn
atomically consumes the pending entry and starts exactly one new build
of p: one new entry in starts, p still in the building set (so p never
passed through the Idle state in between), the pending entry gone, and
the number of outstanding managed builds of p unchanged. -/
theorem rerun_after_busy (pkgs : List PackageId) (s : SchedState) (p : PackageId)
    (hpk : p ∈ pkgs) (hb : p ∈ s.building) (hin : (p, true) ∈ s.inflight)
    (hndB : s.building.Nodup) (hndQ : s.buildQueue.Nodup) :
    step pkgs s (Action.reqBuild p) =
        some { s with buildQueue := s.buildQueue.insert p } ∧
    (p ∈ s.buildQueue → step pkgs s (Action.reqBuild p) = some s) ∧
    (p ∈ s.buildQueue →
      step pkgs s (Action.finishManaged p) =
        some { s with building := (s.building.erase p).insert p,
                      buildQueue := s.buildQueue.erase p,
                      inflight := (p, true) :: removeOne s.inflight (p, true),
                      starts := p :: s.starts } ∧
      p ∈ (s.building.erase p).insert p ∧
      p ∉ s.buildQueue.erase p ∧
      countIn ((p, true) :: removeOne s.inflight (p, true)) (p, true) =
        countIn s.inflight (p, true)) := by
  have hpe : p ∉ s.building.erase p := fun hmem => (hndB.mem_erase_iff.mp hmem).1 rfl
  refine ⟨?_, ?_, ?_⟩
  · simp [step, hpk, queueBuild, hb]
  · intro hq
    simp [step, hpk, queueBuild, hb, List.insert_of_mem hq]
  · intro hq
    refine ⟨?_, List.mem_insert_self p _, ?_, ?_⟩
    · simp [step, hin, hq, queueBuild, hpe]
    · intro hmem
      exact (hndQ.mem_erase_iff.mp hmem).1 rfl
    · have h1 := countIn_removeOne_self (p, true) s.inflight hin
      simp only [countIn, if_true]
      omega

theorem rerun_after_busy_witness :
    step ["a"] busyPending (Action.reqBuild "a") =
        some { busyPending with buildQueue := busyPending.buildQueue.insert "a" } ∧
    ("a" ∈ busyPending.buildQueue →
      step ["a"] busyPending (Action.reqBuild "a") = some busyPending) ∧
    ("a" ∈ busyPending.buildQueue →
      step ["a"] busyPending (Action.finishManaged "a") =
        some { busyPending with
                 building := (busyPending.building.erase "a").insert "a",
                 buildQueue := busyPending.buildQueue.erase "a",
                 inflight := ("a", true) :: removeOne busyPending.inflight ("a", true),
                 starts := "a" :: busyPending.starts } ∧
      "a" ∈ (busyPending.building.erase "a").insert "a" ∧
      "a" ∉ busyPending.buildQueue.erase "a" ∧
      countIn (("a", true) :: removeOne busyPending.inflight ("a", true)) ("a", true) =
        countIn busyPending.inflight ("a", true)) :=
  rerun_after_busy ["a"] busyPending "a" (by decide) (by decide) (by decide)
    (by decide) (by decide)

/-- C5: a build failure is contained.  buildPackage with a failing
body returns normally with the failure logged by the catch clause
(first conjunct) and the working directory restored by the finally
clause (second conjunct), so no exception reaches queueBuild or the
event loop; the completion turn then removes p from the building set,
back to Idle, and touches nothing else: the starts log is unchanged,
so no automatic retry happens (third and fourth conjuncts).  A
subsequent debounced change event for p starts a fresh build (fifth
conjunct), and the scheduler state of every other package q is
untouched by the completion: same building membership and same
outstanding count, so a failure of package p never prevents or delays
a build of package q (last two conjuncts). -/
theorem build_failure_contained (pkgs : List PackageId) (s : SchedState)
    (p q : PackageId) (m : String) (packagesDir : List String) (st : ProcState)
    (hpk : p ∈ pkgs) (hin : (p, true) ∈ s.inflight) (hq : p ∉ s.buildQueue)
    (hnd : s.building.Nodup) (hne : q ≠ p) :
    (buildPackage packagesDir p (Except.error m) st).log =
        LogEntry.buildErr p m :: LogEntry.building p :: st.log ∧
    (buildPackage packagesDir p (Except.error m) st).cwd = st.cwd ∧
    step pkgs s (Action.finishManaged p) =
      some { s with building := s.building.erase p,
                    inflight := removeOne s.inflight (p, true) } ∧
    p ∉ s.building.erase p ∧
    step pkgs { s with building := s.building.erase p,
                       inflight := removeOne s.inflight (p, true) }
        (Action.reqBuild p) =
      some { s with building := (s.building.erase p).insert p,
                    inflight := (p, true) :: removeOne s.inflight (p, true),
                    starts := p :: s.starts } ∧
    (q ∈ s.building.erase p ↔ q ∈ s.building) ∧
    countIn (removeOne s.inflight (p, true)) (q, true) =
      countIn s.inflight (q, true) := by
  have hpe : p ∉ s.building.erase p := fun hmem => (hnd.mem_erase_iff.mp hmem).1 rfl
  refine ⟨rfl, rfl, ?_, hpe, ?_, ?_, ?_⟩
  · simp [step, hin, hq]
  · simp [step, hpk, queueBuild, hpe]
  · exact List.mem_erase_of_ne hne
  · exact countIn_removeOne_ne (p, true) (q, true) (by simp [hne]) s.inflight

theorem build_failure_contained_witness :
    (buildPackage ["packages"] "a" (Except.error "x") (ProcState.mk ["repo"] [])).log =
        LogEntry.buildErr "a" "x" :: LogEntry.building "a" ::
          (ProcState.mk ["repo"] []).log ∧
    (buildPackage ["packages"] "a" (Except.error "x") (ProcState.mk ["repo"] [])).cwd =
        (ProcState.mk ["repo"] []).cwd ∧
    step ["a", "b"] busyNoQueue (Action.finishManaged "a") =
      some { busyNoQueue with
               building := busyNoQueue.building.erase "a",
               inflight := removeOne busyNoQueue.inflight ("a", true) } ∧
    "a" ∉ busyNoQueue.building.erase "a" ∧
    step ["a", "b"] { busyNoQueue with
                        building := busyNoQueue.building.erase "a",
                        inflight := removeOne busyNoQueue.inflight ("a", true) }
        (Action.reqBuild "a") =
      some { busyNoQueue with
               building := (busyNoQueue.building.erase "a").insert "a",
               inflight := ("a", true) :: removeOne busyNoQueue.inflight ("a", true),
               starts := "a" :: busyNoQueue.starts } ∧
    ("b" ∈ busyNoQueue.building.erase "a" ↔ "b" ∈ busyNoQueue.building) ∧
    countIn (removeOne busyNoQueue.inflight ("a", true)) ("b", true) =
      countIn busyNoQueue.inflight ("b", true) :=
  build_failure_contained ["a", "b"] busyNoQueue "a" "b" "x" ["packages"]
    (ProcState.mk ["repo"] []) (by decide) (by decide) (by decide) (by decide)
    (by decide)

/-- C6 counterexample: the initial pass neither goes through
requestBuild nor completes before the watcher subscription triggers
further builds, and its build calls can overlap watcher-triggered
ones.  With registry [a, b], while the pass is still building a, a
debounced watcher event for b starts a queueBuild-managed build of b;
when the pass then reaches b it starts a second, overlapping
buildPackage of b: two outstanding builds of b at once, refuting the
claimed one-build-per-package, no-overlap initial pass. -/
theorem initial_pass_not_serialized :
    (runTrace ["a", "b"] (initState ["a", "b"])
        [Action.initStart, Action.reqBuild "b", Action.finishInit, Action.initStart]).map
      (fun s => outstanding s "b") = some 2 := by
  decide

/-- C6 amended: at process start the script builds every package of
the registry by calling buildPackage directly (not requestBuild), one
at a time, awaiting each call before starting the next; in the absence
of watcher-triggered requests the pass performs exactly one build call
per registered package, in registry order, and at every point of the
pass at most one build is outstanding, so the N initial builds never
overlap one another.  The watcher subscription is already active
during the pass, so debounced events may add overlapping builds, as
the counterexample shows. -/
theorem initial_pass_sequential (pkgs : List PackageId) (hnd : pkgs.Nodup) :
    ∃ s : SchedState,
      runTrace pkgs (initState pkgs) (initPassTrace pkgs) = some s ∧
      s.starts = pkgs.reverse ∧
      s.starts.length = pkgs.length ∧
      (∀ p : PackageId, p ∈ pkgs → s.starts.count p = 1) ∧
      alongTrace pkgs fewInflight (initState pkgs) (initPassTrace pkgs) = true := by
  obtain ⟨hrun, halong⟩ := runTrace_initPass pkgs pkgs (initState pkgs) rfl rfl
  refine ⟨{ initState pkgs with initRem := [], starts := pkgs.reverse ++ [] },
    hrun, by simp, by simp, ?_, halong⟩
  intro p hp
  simp only [List.append_nil]
  rw [List.count_reverse]
  exact List.count_eq_one_of_mem hnd hp

theorem initial_pass_sequential_witness :
    ∃ s : SchedState,
      runTrace ["a", "b"] (initState ["a", "b"]) (initPassTrace ["a", "b"]) = some s ∧
      s.starts = (["a", "b"] : List PackageId).reverse ∧
      s.starts.length = (["a", "b"] : List PackageId).length ∧
      (∀ p : PackageId, p ∈ (["a", "b"] : List PackageId) → s.starts.count p = 1) ∧
      alongTrace ["a", "b"] fewInflight (initState ["a", "b"])
        (initPassTrace ["a", "b"]) = true :=
  initial_pass_sequential ["a", "b"] (by decide)

/-- C9: queueBuild is call-and-forget.  For every registered package
the reqBuild turn is always enabled and completes immediately (the
step yields a successor state rather than an error), leaving the
freshly started build outstanding in inflight when the package was
idle, or merely recording the pending flag when it was busy, so the
caller never waits for the build; and buildPackage converts every
build error into a console line and returns normally with the working
directory restored, so the fire-and-forget promise never rejects and
no exception ever reaches the caller of queueBuild. -/
theorem requestBuild_fire_and_forget (pkgs : List PackageId) (s : SchedState)
    (p : PackageId) (hpk : p ∈ pkgs) :
    (∃ t : SchedState, step pkgs s (Action.reqBuild p) = some t ∧
        (p ∉ s.building → (p, true) ∈ t.inflight) ∧
        (p ∈ s.building → t = { s with buildQueue := s.buildQueue.insert p })) ∧
    (∀ (packagesDir : List String) (m : String) (st : ProcState),
        buildPackage packagesDir p (Except.error m) st =
          ProcState.mk st.cwd
            (LogEntry.buildErr p m :: LogEntry.building p :: st.log)) := by
  constructor
  · refine ⟨queueBuild s p, ?_, ?_, ?_⟩
    · simp [step, hpk]
    · intro hb
      simp [queueBuild, hb]
    · intro hb
      simp [queueBuild, hb]
  · intro packagesDir m st
    rfl

theorem requestBuild_fire_and_forget_witness :
    (∃ t : SchedState, step ["a"] (initState ["a"]) (Action.reqBuild "a") = some t ∧
        ("a" ∉ (initState ["a"]).building → ("a", true) ∈ t.inflight) ∧
        ("a" ∈ (initState ["a"]).building →
          t = { initState ["a"] with
                  buildQueue := (initState ["a"]).buildQueue.insert "a" })) ∧
    (∀ (packagesDir : List String) (m : String) (st : ProcState),
        buildPackage packagesDir "a" (Except.error m) st =
          ProcState.mk st.cwd
            (LogEntry.buildErr "a" m :: LogEntry.building "a" :: st.log)) :=
  requestBuild_fire_and_forget ["a"] (initState ["a"]) "a" (by decide)

end BuildWatch
